import Mathlib

/-!
Verification of the X-Ray Threat Detector application (app_code/app.py).

The Python source is shallowly embedded below: pure helper functions become
Lean functions on `String`, `Nat`, `ℚ` and `List`; the image-conversion
pipeline is modelled at the level it is observed in the claims (mode string
and pixel dimensions); Python float arithmetic on dyadic values
(confidence thresholds, size rounding) is idealised over `ℚ` resp. `Nat`,
where the dyadic denominators make the idealisation exact.  The one place
where binary64 rounding is observable — the ICO downscale factor — is
modelled bit-exactly by an integer significand/exponent construction.
All definitions come first, followed by the theorems.
-/

namespace XRayApp

/-- Splits a character list at the first underscore, mirroring Python
`raw_name.split("_", 1)`: `none` when no underscore occurs (one part),
otherwise the pair of the part before and the part after the first
underscore (two parts). -/
def splitOnceAux : List Char → Option (List Char × List Char)
  | [] => none
  | c :: cs =>
    if c = '_' then some ([], cs)
    else
      match splitOnceAux cs with
      | none => none
      | some p => some (c :: p.1, p.2)

/-- Embedding of `clean_class_name` (app.py lines 90-95):
`parts = raw_name.split("_", 1); if len(parts) == 2: return parts[1];
return raw_name`. -/
def clean_class_name (raw_name : String) : String :=
  match splitOnceAux raw_name.data with
  | none => raw_name
  | some p => String.mk p.2

/-- One record of the threat metadata dictionary (app.py lines 26-87).
The fallback record built inline in `render_results` has no icon entry,
hence `icon` is optional. -/
structure ThreatRec where
  risk : String
  color : String
  icon : Option String
  desc : String
  deriving DecidableEq

/-- Embedding of the `THREAT_INFO` dictionary (app.py lines 26-87) as an
association list in source order. -/
def THREAT_INFO : List (String × ThreatRec) :=
  [("Battery", ⟨"Medium", "#f0ad4e",
      some "https://cdn-icons-png.flaticon.com/512/3659/3659898.png",
      "Lithium batteries can pose fire risks in cargo."⟩),
   ("Scissors", ⟨"Medium", "#f0ad4e",
      some "https://cdn-icons-png.flaticon.com/512/2544/2544tried.png",
      "Scissors with blades over 6 cm are restricted."⟩),
   ("Hammer", ⟨"Medium", "#f0ad4e",
      some "https://cdn-icons-png.flaticon.com/512/595/595584.png",
      "Blunt-force tools are prohibited in carry-on luggage."⟩),
   ("Pliers", ⟨"Medium", "#f0ad4e",
      some "https://cdn-icons-png.flaticon.com/512/595/595584.png",
      "Hand tools over 7 cm are restricted in cabins."⟩),
   ("Wrench", ⟨"Medium", "#f0ad4e",
      some "https://cdn-icons-png.flaticon.com/512/595/595584.png",
      "Heavy tools are not allowed as carry-on items."⟩),
   ("Explosive", ⟨"Critical", "#d9534f",
      some "https://cdn-icons-png.flaticon.com/512/2785/2785819.png",
      "Explosive materials are strictly prohibited."⟩),
   ("Bullet", ⟨"High", "#d9534f",
      some "https://cdn-icons-png.flaticon.com/512/2785/2785819.png",
      "Ammunition is banned from all passenger flights."⟩),
   ("Knife", ⟨"High", "#d9534f",
      some "https://cdn-icons-png.flaticon.com/512/3460/3460996.png",
      "Knives of any length are prohibited in carry-on."⟩),
   ("Cutter", ⟨"High", "#d9534f",
      some "https://cdn-icons-png.flaticon.com/512/3460/3460996.png",
      "Box cutters and blades are strictly forbidden."⟩),
   ("Lighter", ⟨"Low", "#5bc0de",
      some "https://cdn-icons-png.flaticon.com/512/785/785116.png",
      "One disposable lighter is allowed on person only."⟩)]

/-- The fallback record passed as the default of `THREAT_INFO.get` in
`render_results` (app.py lines 783-787). -/
def defaultThreatRec : ThreatRec :=
  ⟨"Unknown", "#94a3b8", none, "No additional information available."⟩

/-- Embedding of `THREAT_INFO.get(predicted_class, default)`
(app.py lines 783-787): dictionary lookup with fallback default. -/
def lookupThreat (name : String) : ThreatRec :=
  (THREAT_INFO.lookup name).getD defaultThreatRec

/-- The displayed identity computed by `render_results`
(app.py lines 780-802): name, risk text, css badge class, description. -/
structure DisplayCard where
  display_name : String
  display_risk : String
  risk_class : String
  display_desc : String
  deriving DecidableEq

/-- Embedding of the display-identity part of `render_results`
(app.py lines 780-802).  The source computes
`info = THREAT_INFO.get(predicted_class, default)`, `risk = info["risk"]`,
`risk_class = "risk-" + risk.lower()`, then the low-confidence override
`is_uncertain = confidence < 0.30`.  The float literal `0.30` is idealised
as the exact rational `3/10`. -/
def render_results_display (predicted_class : String) (confidence : ℚ) : DisplayCard :=
  let info := lookupThreat predicted_class
  let risk := info.risk
  let risk_class := "risk-" ++ risk.toLower
  if confidence < 3/10 then
    { display_name := "Not Known", display_risk := "Unknown", risk_class := "risk-low",
      display_desc := "The model is not confident enough. Closest guess: "
        ++ predicted_class ++ "." }
  else
    { display_name := predicted_class, display_risk := risk, risk_class := risk_class,
      display_desc := info.desc }

/-- Embedding of `np.argmax` as used in `predict` (app.py line 140): index
of the first occurrence of the maximum entry (NumPy breaks ties by the
lowest index). -/
def npArgmax : List ℚ → ℕ
  | [] => 0
  | [_] => 0
  | p :: q :: rest =>
    if p < (q :: rest).getD (npArgmax (q :: rest)) 0 then npArgmax (q :: rest) + 1 else 0

/-- Embedding of the tail of `predict` (app.py lines 139-144):
`top_idx = int(np.argmax(probs)); confidence = float(probs[top_idx]);
predicted_class = class_names[top_idx];
return predicted_class, confidence, probs`.  The cached clean-class-name
list and the probability vector produced by the forward pass are the two
inputs; the TFLite forward pass itself is an opaque numeric artifact and is
not modelled. -/
def predictFromProbs (class_names : List String) (probs : List ℚ) :
    String × ℚ × List ℚ :=
  let top_idx := npArgmax probs
  let confidence := probs.getD top_idx 0
  let predicted_class := class_names.getD top_idx ""
  (predicted_class, confidence, probs)

/-- Abstraction of a PIL image as observed by the converter claims: the
color-mode string (PIL `Image.mode`, e.g. "RGB", "RGBA", "LA", "P") and the
pixel dimensions.  Pixel contents are not modelled; every step of the
source pipeline is represented by its effect on mode and size. -/
structure PILImage where
  mode : String
  width : ℕ
  height : ℕ
  deriving DecidableEq

/-- Modelled from the spec wording of C5: PIL modes that carry an alpha
(transparency) band.  Used only to compare the claim against the source
branch condition, which tests `mode == "RGBA"` alone. -/
def hasAlphaMode (mode : String) : Bool :=
  mode = "RGBA" || mode = "LA" || mode = "PA" || mode = "RGBa" || mode = "La"

/-- Embedding of the alpha-handling step of `render_image_converter`
(app.py lines 1028-1034): if the target is JPEG, BMP or ICO and the mode is
exactly "RGBA", the image is pasted onto a fresh white "RGB" background of
the same size (white fill is below the mode/size abstraction); otherwise, if
the target is JPEG and the mode is not "RGB", the image is converted
directly to "RGB". -/
def alphaStep (target : String) (img : PILImage) : PILImage :=
  if (target = "JPEG" ∨ target = "BMP" ∨ target = "ICO") ∧ img.mode = "RGBA" then
    { mode := "RGB", width := img.width, height := img.height }
  else if target = "JPEG" ∧ img.mode ≠ "RGB" then
    { img with mode := "RGB" }
  else img

/-- Exact-rational idealisation of the ICO size limit of
`render_image_converter` (app.py lines 1036-1044): when the target is ICO
and the larger dimension exceeds 256, both dimensions are scaled by
256/max and truncated to integers.  Here the Python float expression
`int(size * (256.0 / max_dim))` is idealised as the exact rational floor
`size * 256 / max_dim` (Nat division); `icoStepF` below models the same
step bit-exactly in binary64 floats. -/
def icoStep (target : String) (img : PILImage) : PILImage :=
  if target = "ICO" then
    if 256 < max img.width img.height then
      { img with
        width := img.width * 256 / max img.width img.height,
        height := img.height * 256 / max img.width img.height }
    else img
  else img

/-- The conversion pipeline of `render_image_converter`
(app.py lines 1020-1051) up to encoding, at the mode/size abstraction:
optional resize, then alpha handling, then the ICO size limit.  Encoding to
the output buffer changes neither mode nor dimensions. -/
def convertPipeline (target : String) (resizeTo : Option (ℕ × ℕ))
    (img : PILImage) : PILImage :=
  let resized := match resizeTo with
    | some wh => { img with width := wh.1, height := wh.2 }
    | none => img
  icoStep target (alphaStep target resized)

/-- Round-half-to-even division, the rounding of Python `round` applied to
the exactly representable dyadic quotients `a / b` of the size formatter,
and the rounding step of the binary64 model below: nearest integer to
`a / b`, ties to the even quotient. -/
def halfEvenDiv (a b : ℕ) : ℕ :=
  if 2 * (a % b) < b then a / b
  else if b < 2 * (a % b) then a / b + 1
  else if (a / b) % 2 = 0 then a / b else a / b + 1

/-- Python `str` of the one-decimal float `k / 10`: integer part, dot, one
digit. -/
def renderTenths (k : ℕ) : String :=
  toString (k / 10) ++ "." ++ toString (k % 10)

/-- Python `str` of the two-decimal float `k / 100`: trailing zeros beyond
the first decimal are not printed, a single leading fractional zero is. -/
def renderHundredths (k : ℕ) : String :=
  if k % 100 = 0 then toString (k / 100) ++ ".0"
  else if k % 10 = 0 then toString (k / 100) ++ "." ++ toString (k % 100 / 10)
  else if k % 100 < 10 then toString (k / 100) ++ ".0" ++ toString (k % 100)
  else toString (k / 100) ++ "." ++ toString (k % 100)

/-- Embedding of the file-size formatting of `render_image_converter`
(app.py lines 1054-1060): bytes below 1024; otherwise
`str(round(size / 1024, 1)) + " KB"` below 1024 * 1024; otherwise
`str(round(size / (1024 * 1024), 2)) + " MB"`.  The float rounding is
exact here because the quotients are dyadic, and is modelled by
`halfEvenDiv` over scaled integers. -/
def sizeStr (n : ℕ) : String :=
  if n < 1024 then toString n ++ " B"
  else if n < 1048576 then renderTenths (halfEvenDiv (n * 10) 1024) ++ " KB"
  else renderHundredths (halfEvenDiv (n * 100) 1048576) ++ " MB"

/-- Fuel-bounded doubling of the numerator of the fraction a/b (with an
exponent correction) until the fraction reaches 2^52; first half of the
normalisation of the binary64 rounding model. -/
def scaleUpN : ℕ → ℕ → ℕ → ℤ → ℕ × ℕ × ℤ
  | 0, a, b, e => (a, b, e)
  | f + 1, a, b, e =>
    if a < 2 ^ 52 * b then scaleUpN f (2 * a) b (e - 1) else (a, b, e)

/-- Fuel-bounded doubling of the denominator of the fraction a/b (with an
exponent correction) until the fraction drops below 2^53; second half of
the normalisation of the binary64 rounding model. -/
def scaleDownN : ℕ → ℕ → ℕ → ℤ → ℕ × ℕ × ℤ
  | 0, a, b, e => (a, b, e)
  | f + 1, a, b, e =>
    if 2 ^ 53 * b ≤ a then scaleDownN f a (2 * b) (e + 1) else (a, b, e)

/-- The IEEE binary64 value nearest to (a/b) * 2^e (round to nearest, ties
to even), as a significand/exponent pair: the fraction is normalised into
[2^52, 2^53) and rounded half-even.  For the magnitudes reachable in the
ICO downscale this is exactly the Python float semantics of
`256.0 / max_dim` and of multiplying a small integer by that float. -/
def flPair (a b : ℕ) (e : ℤ) : ℕ × ℤ :=
  let u := scaleUpN 200 a b e
  let d := scaleDownN 200 u.1 u.2.1 u.2.2
  (halfEvenDiv d.1 d.2.1, d.2.2)

/-- Python `int()` truncation of the nonnegative double s * 2^e. -/
def floorSig (s : ℕ) (e : ℤ) : ℕ :=
  if 0 ≤ e then s * 2 ^ e.toNat else s / 2 ^ (-e).toNat

/-- The two output dimensions of the ICO downscale exactly as the source
computes them in floats (app.py lines 1040-1044):
`ratio = 256.0 / max_dim` rounded once to binary64, then each side
multiplied by the rounded ratio, rounded again, and truncated by `int()`. -/
def icoScaleF (w h : ℕ) : ℕ × ℕ :=
  (floorSig (flPair (w * (flPair 256 (max w h) 0).1) 1 (flPair 256 (max w h) 0).2).1
      (flPair (w * (flPair 256 (max w h) 0).1) 1 (flPair 256 (max w h) 0).2).2,
    floorSig (flPair (h * (flPair 256 (max w h) 0).1) 1 (flPair 256 (max w h) 0).2).1
      (flPair (h * (flPair 256 (max w h) 0).1) 1 (flPair 256 (max w h) 0).2).2)

/-- Float-accurate embedding of the ICO size limit
(app.py lines 1036-1044), tracking the binary64 rounding of the scale
factor and of the two multiplications. -/
def icoStepF (target : String) (img : PILImage) : PILImage :=
  if target = "ICO" then
    if 256 < max img.width img.height then
      { img with
        width := (icoScaleF img.width img.height).1,
        height := (icoScaleF img.width img.height).2 }
    else img
  else img

/-- One record of the `FORMAT_OPTIONS` table (app.py lines 930-938). -/
structure FormatRec where
  ext : String
  mime : String
  pillow : String
  deriving DecidableEq

/-- Embedding of the `FORMAT_OPTIONS` dictionary (app.py lines 930-938) in
source order. -/
def FORMAT_OPTIONS : List (String × FormatRec) :=
  [("PNG", ⟨"png", "image/png", "PNG"⟩),
   ("JPEG", ⟨"jpg", "image/jpeg", "JPEG"⟩),
   ("BMP", ⟨"bmp", "image/bmp", "BMP"⟩),
   ("GIF", ⟨"gif", "image/gif", "GIF"⟩),
   ("TIFF", ⟨"tiff", "image/tiff", "TIFF"⟩),
   ("WEBP", ⟨"webp", "image/webp", "WEBP"⟩),
   ("ICO", ⟨"ico", "image/x-icon", "ICO"⟩)]

/-- Embedding of `Path(conv_file.name).stem` (app.py line 1085) for plain
file names (no directory separators): the name up to its last extension
separator; a name without a dot, a name whose only dot is leading, and a
name with a trailing dot are returned unchanged, matching pathlib. -/
def pathStem (name : String) : String :=
  let rev := name.data.reverse
  let extRev := rev.takeWhile (fun c => c != '.')
  match rev.dropWhile (fun c => c != '.') with
  | [] => name
  | _ :: baseRev =>
    if baseRev = [] ∨ extRev = [] then name
    else String.mk baseRev.reverse

/-- Embedding of the download-name derivation (app.py lines 1085-1086):
`orig_stem + "_converted." + fmt_info["ext"]`, with the extension looked up
in `FORMAT_OPTIONS` for the selected target. -/
def outName (name target : String) : Option String :=
  (FORMAT_OPTIONS.lookup target).map
    (fun f => pathStem name ++ "_converted." ++ f.ext)

/-- The data-carrying skeleton of the CSS block emitted by `get_bg_css`
when the background file exists (app.py lines 154-199); the purely
decorative rules are elided, keeping the base64 payload position. -/
def bgCss (data : String) : String :=
  "<style> .stApp \x7b background-image: url(data:image/jpeg;base64,"
    ++ data ++ ") \x7d </style>"

/-- Embedding of `get_bg_css` (app.py lines 148-200): the filesystem is
abstracted by the flag `bgExists` (the result of `BG_IMAGE_PATH.exists()`)
and the base64 payload by `data`; when the file is missing the function
returns the empty string and never fails. -/
def get_bg_css (bgExists : Bool) (data : String) : String :=
  if bgExists then bgCss data else ""

/-- Embedding of `load_model` (app.py lines 100-105).  Modelled from the
spec for the file-missing case: constructing the TFLite interpreter on a
missing artifact raises, per the spec error taxonomy (fatal startup
failure); the loaded interpreter itself is an opaque artifact, kept
abstract as `Unit`. -/
def load_model (modelFileExists : Bool) : Except String Unit :=
  if modelFileExists then Except.ok ()
  else Except.error "FileNotFoundError: saved_models/best_model_part2.tflite"

/-- Embedding of `load_class_names` (app.py lines 109-112).  Modelled from
the spec for the file-missing case: `np.load` on a missing label file
raises (fatal startup failure); on success the raw labels are cleaned with
`clean_class_name` in order. -/
def load_class_names (classFileExists : Bool) (rawNames : List String) :
    Except String (List String) :=
  if classFileExists then Except.ok (rawNames.map clean_class_name)
  else Except.error "FileNotFoundError: saved_models/class_names_7classes.npy"

theorem splitOnceAux_no_underscore (cs : List Char) (h : '_' ∉ cs) :
    splitOnceAux cs = none := by
  induction cs with
  | nil => rfl
  | cons c cs ih =>
    have hc : ¬ c = '_' := fun hc => h (hc ▸ List.mem_cons_self c cs)
    have hcs : '_' ∉ cs := fun hm => h (List.mem_cons_of_mem c hm)
    simp [splitOnceAux, hc, ih hcs]

theorem splitOnceAux_append (pre post : List Char) (h : '_' ∉ pre) :
    splitOnceAux (pre ++ '_' :: post) = some (pre, post) := by
  induction pre with
  | nil => simp [splitOnceAux]
  | cons c cs ih =>
    have hc : ¬ c = '_' := fun hc => h (hc ▸ List.mem_cons_self c cs)
    have hcs : '_' ∉ cs := fun hm => h (List.mem_cons_of_mem c hm)
    simp [splitOnceAux, hc, ih hcs]

/-- C3: `clean_class_name` splits on the first underscore only: on a string
with at least one underscore it returns everything after the first
underscore (the second part of a two-part split, even if that part itself
contains more underscores), and a string without an underscore is returned
unchanged. Instantiating `pre := "Class 10", post := "Battery"` gives the
`"Class 10_Battery" ↦ "Battery"` example; `pre := "A", post := "B_C"` gives
the `"A_B_C" ↦ "B_C"` example; the second conjunct gives
`"Battery" ↦ "Battery"`. The function is a total Lean function, hence pure
and without errors. -/
theorem clean_class_name_spec (pre post : String) (h : '_' ∉ pre.data) :
    clean_class_name (pre ++ "_" ++ post) = post ∧ clean_class_name pre = pre := by
  constructor
  · have hdata : (pre ++ "_" ++ post).data = pre.data ++ '_' :: post.data := by
      simp [String.data_append]
    simp only [clean_class_name, hdata, splitOnceAux_append pre.data post.data h]
  · simp only [clean_class_name, splitOnceAux_no_underscore pre.data h]

/-- Witness for C3 at the concrete inputs of the claim. -/
theorem clean_class_name_spec_witness :
    clean_class_name "Class 10_Battery" = "Battery" ∧
      clean_class_name "Class 10" = "Class 10" :=
  clean_class_name_spec "Class 10" "Battery" (by decide)

theorem lookup_eq_none_of_not_mem_keys {κ : Type} {ν : Type} [BEq κ]
    [LawfulBEq κ] (xs : List (κ × ν)) (key : κ)
    (h : key ∉ xs.map Prod.fst) : xs.lookup key = none := by
  induction xs with
  | nil => rfl
  | cons p l ih =>
    have h1 : ¬ key = p.1 := fun he => h (by simp [he])
    have h2 : key ∉ l.map Prod.fst := fun hm =>
      h (by simp [List.mem_map] at hm ⊢; tauto)
    simp [List.lookup, beq_eq_false_iff_ne.2 h1, ih h2]

theorem lookup_eq_some_of_mem_nodup {κ : Type} {ν : Type} [BEq κ]
    [LawfulBEq κ] (xs : List (κ × ν)) (hnd : (xs.map Prod.fst).Nodup)
    (key : κ) (v : ν) (hmem : (key, v) ∈ xs) : xs.lookup key = some v := by
  induction xs with
  | nil => exact absurd hmem (List.not_mem_nil _)
  | cons p l ih =>
    rcases List.mem_cons.1 hmem with heq | htail
    · have h1 : key = p.1 := congrArg Prod.fst heq.symm ▸ rfl
      have h2 : v = p.2 := congrArg Prod.snd heq.symm ▸ rfl
      subst h1
      subst h2
      simp [List.lookup]
    · have hkey : key ∈ l.map Prod.fst :=
        List.mem_map.2 ⟨(key, v), htail, rfl⟩
      have hne : ¬ key = p.1 := by
        intro he
        exact (List.nodup_cons.1 hnd).1 (he ▸ hkey)
      have htl : (l.map Prod.fst).Nodup := (List.nodup_cons.1 hnd).2
      simp [List.lookup, beq_eq_false_iff_ne.2 hne, ih htl htail]

/-- C4: the threat-catalog lookup is a total function; a name bound in the
10-entry catalog returns its own record, any other name returns the
default record with risk "Unknown", neutral gray color `#94a3b8` and the
generic description. The three lookups of the claim are also evaluated. -/
theorem threat_lookup_spec (name : String) (r : ThreatRec) :
    ((name, r) ∈ THREAT_INFO → lookupThreat name = r) ∧
    (name ∉ THREAT_INFO.map Prod.fst → lookupThreat name = defaultThreatRec) ∧
    (lookupThreat "Explosive").risk = "Critical" ∧
    (lookupThreat "Lighter").risk = "Low" ∧
    lookupThreat "NotAThreat" = defaultThreatRec ∧
    defaultThreatRec.risk = "Unknown" ∧
    defaultThreatRec.color = "#94a3b8" ∧
    defaultThreatRec.desc = "No additional information available." := by
  refine ⟨?_, ?_, rfl, rfl, rfl, rfl, rfl, rfl⟩
  · intro h
    have hnd : (THREAT_INFO.map Prod.fst).Nodup := by decide
    simp [lookupThreat, lookup_eq_some_of_mem_nodup THREAT_INFO hnd name r h]
  · intro h
    simp [lookupThreat, lookup_eq_none_of_not_mem_keys THREAT_INFO name h]

/-- Witness for C4: the catalog entry for "Explosive" is returned verbatim,
and an uncataloged name falls back to the default record. -/
theorem threat_lookup_spec_witness :
    lookupThreat "Explosive" =
      ⟨"Critical", "#d9534f",
        some "https://cdn-icons-png.flaticon.com/512/2785/2785819.png",
        "Explosive materials are strictly prohibited."⟩ :=
  (threat_lookup_spec "Explosive"
      ⟨"Critical", "#d9534f",
        some "https://cdn-icons-png.flaticon.com/512/2785/2785819.png",
        "Explosive materials are strictly prohibited."⟩).1 (by decide)

/-- C2: when confidence is strictly below 3/10 the displayed name is
"Not Known", the displayed risk is "Unknown" with the Low-risk badge class
`risk-low`, and the description is the closest-guess sentence built from the
unchanged predicted label; at confidence exactly 3/10 or above the override
does not trigger and the label together with its own catalog record (or the
Unknown fallback) is displayed.  Both branches are pure functions of the
unchanged `(p, c)` inputs. -/
theorem render_results_low_conf (p : String) (c : ℚ) :
    (c < 3/10 → render_results_display p c =
      ⟨"Not Known", "Unknown", "risk-low",
        "The model is not confident enough. Closest guess: " ++ p ++ "."⟩) ∧
    (3/10 ≤ c → render_results_display p c =
      ⟨p, (lookupThreat p).risk, "risk-" ++ (lookupThreat p).risk.toLower,
        (lookupThreat p).desc⟩) := by
  constructor
  · intro h
    simp [render_results_display, h]
  · intro h
    simp [render_results_display, not_lt.2 h]

/-- Witness for C2: confidence 0.29 with predicted label "Knife" triggers
the override. -/
theorem render_results_low_conf_witness :
    render_results_display "Knife" (29/100) =
      ⟨"Not Known", "Unknown", "risk-low",
        "The model is not confident enough. Closest guess: Knife."⟩ :=
  (render_results_low_conf "Knife" (29/100)).1 (by norm_num)

theorem npArgmax_lt_length : ∀ l : List ℚ, l ≠ [] → npArgmax l < l.length
  | [], h => absurd rfl h
  | [_], _ => by simp [npArgmax]
  | p :: q :: rest, _ => by
    have ih := npArgmax_lt_length (q :: rest) (by simp)
    by_cases hc : p < (q :: rest).getD (npArgmax (q :: rest)) 0
    · simp only [npArgmax, if_pos hc, List.length_cons]
      simp only [List.length_cons] at ih
      omega
    · simp only [npArgmax, if_neg hc, List.length_cons]
      omega

theorem npArgmax_is_max :
    ∀ (l : List ℚ) (j : ℕ), j < l.length → l.getD j 0 ≤ l.getD (npArgmax l) 0
  | [], j, hj => by simp at hj
  | [x], j, hj => by
    have hj0 : j = 0 := by simpa using hj
    subst hj0
    simp [npArgmax]
  | p :: q :: rest, j, hj => by
    by_cases hc : p < (q :: rest).getD (npArgmax (q :: rest)) 0
    · simp only [npArgmax, if_pos hc, List.getD_cons_succ]
      match j with
      | 0 => exact le_of_lt hc
      | k + 1 =>
        exact npArgmax_is_max (q :: rest) k (Nat.lt_of_succ_lt_succ hj)
    · simp only [npArgmax, if_neg hc, List.getD_cons_zero]
      match j with
      | 0 => exact le_refl p
      | k + 1 =>
        exact le_trans (npArgmax_is_max (q :: rest) k (Nat.lt_of_succ_lt_succ hj))
          (not_lt.1 hc)

theorem npArgmax_first_occurrence :
    ∀ (l : List ℚ) (j : ℕ), j < npArgmax l → l.getD j 0 < l.getD (npArgmax l) 0
  | [], j, hj => by simp [npArgmax] at hj
  | [_], j, hj => by simp [npArgmax] at hj
  | p :: q :: rest, j, hj => by
    by_cases hc : p < (q :: rest).getD (npArgmax (q :: rest)) 0
    · simp only [npArgmax, if_pos hc, List.getD_cons_succ]
      match j with
      | 0 => exact hc
      | k + 1 =>
        have hk : k < npArgmax (q :: rest) := by
          have := hj
          simp only [npArgmax, if_pos hc] at this
          omega
        exact npArgmax_first_occurrence (q :: rest) k hk
    · simp only [npArgmax, if_neg hc] at hj
      exact absurd hj (by omega)

/-- C1: for every nonempty probability vector, `predict` returns the vector
itself as third component, a confidence that is an entry of the vector and
is greater than or equal to every entry (hence the maximum), every entry
before the chosen index is strictly smaller (first-occurrence
tie-breaking), the chosen index is in range, and the returned label is the
class-name-list entry at that index. -/
theorem predict_spec (class_names : List String) (probs : List ℚ)
    (h : probs ≠ []) (hlen : class_names.length = probs.length) :
    (predictFromProbs class_names probs).2.2 = probs ∧
    (predictFromProbs class_names probs).2.1 ∈ probs ∧
    (∀ q ∈ probs, q ≤ (predictFromProbs class_names probs).2.1) ∧
    npArgmax probs < probs.length ∧
    (∀ j, j < npArgmax probs →
      probs.getD j 0 < (predictFromProbs class_names probs).2.1) ∧
    (predictFromProbs class_names probs).1 =
      class_names.get ⟨npArgmax probs, hlen ▸ npArgmax_lt_length probs h⟩ := by
  have hlt : npArgmax probs < probs.length := npArgmax_lt_length probs h
  refine ⟨rfl, ?_, ?_, hlt, ?_, ?_⟩
  · show probs.getD (npArgmax probs) 0 ∈ probs
    rw [List.getD_eq_getElem probs 0 hlt]
    exact List.getElem_mem hlt
  · intro q hq
    obtain ⟨i, hi, rfl⟩ := List.mem_iff_getElem.1 hq
    show probs[i] ≤ probs.getD (npArgmax probs) 0
    rw [← List.getD_eq_getElem probs 0 hi]
    exact npArgmax_is_max probs i hi
  · intro j hj
    exact npArgmax_first_occurrence probs j hj
  · show class_names.getD (npArgmax probs) "" = _
    rw [List.getD_eq_getElem class_names "" (hlen ▸ npArgmax_lt_length probs h)]
    simp [List.get_eq_getElem]

/-- Witness for C1 on the probability vector of testable property 10 of the
spec: the confidence reported at the argmax index is an entry of the
vector. -/
theorem predict_spec_witness :
    (predictFromProbs
        ["Battery", "Bullet", "Cutter", "Explosive", "Knife", "Lighter", "Scissors"]
        [1/20, 1/20, 1/20, 1/20, 1/20, 7/10, 1/20]).2.1 ∈
      ([1/20, 1/20, 1/20, 1/20, 1/20, 7/10, 1/20] : List ℚ) :=
  (predict_spec
      ["Battery", "Bullet", "Cutter", "Explosive", "Knife", "Lighter", "Scissors"]
      [1/20, 1/20, 1/20, 1/20, 1/20, 7/10, 1/20] (by simp) rfl).2.1

/-- Counterexample to C5 as stated: mode "LA" (grayscale plus alpha) is a
mode with transparency, yet for target "BMP" the source flattens nothing,
because its branch condition tests `mode == "RGBA"` exactly; the image
keeps its alpha band. -/
theorem alpha_flatten_counterexample :
    hasAlphaMode "LA" = true ∧
    alphaStep "BMP" ⟨"LA", 100, 80⟩ = ⟨"LA", 100, 80⟩ ∧
    (alphaStep "BMP" ⟨"LA", 100, 80⟩).mode ≠ "RGB" := by
  refine ⟨rfl, by decide, by decide⟩

/-- C5 amended: for targets JPEG, BMP and ICO an image in mode "RGBA"
exactly is composited onto a white "RGB" background of the same size; and
for a JPEG target an image in any other non-"RGB" mode is converted
directly to RGB, keeping its size. -/
theorem alpha_handling_amended (target : String) (img : PILImage) :
    ((target = "JPEG" ∨ target = "BMP" ∨ target = "ICO") → img.mode = "RGBA" →
      alphaStep target img = ⟨"RGB", img.width, img.height⟩) ∧
    (target = "JPEG" → img.mode ≠ "RGBA" → img.mode ≠ "RGB" →
      alphaStep target img = ⟨"RGB", img.width, img.height⟩) := by
  constructor
  · intro h1 h2
    simp only [alphaStep, if_pos (And.intro h1 h2)]
  · intro hJ hA hR
    simp only [alphaStep]
    rw [if_neg (fun hcon => hA hcon.2), if_pos (And.intro hJ hR)]

/-- Witness for C5 amended: a 100 x 80 RGBA image headed to JPEG is
flattened to RGB at the same size. -/
theorem alpha_handling_amended_witness :
    alphaStep "JPEG" ⟨"RGBA", 100, 80⟩ = ⟨"RGB", 100, 80⟩ :=
  (alpha_handling_amended "JPEG" ⟨"RGBA", 100, 80⟩).1 (Or.inl rfl) rfl

/-- The exact-rational idealisation `icoStep` gives a longer side of
exactly 256: with real-number arithmetic the downscale is
floor(size * 256 / max) on both sides and the maximum lands on 256.  The
deployed code computes the factor in binary64; see
`ico_downscale_amended` for the float-accurate statement. -/
theorem ico_downscale_exact (img : PILImage) :
    (256 < max img.width img.height →
      (icoStep "ICO" img).width = img.width * 256 / max img.width img.height ∧
      (icoStep "ICO" img).height = img.height * 256 / max img.width img.height ∧
      max (icoStep "ICO" img).width (icoStep "ICO" img).height = 256) ∧
    (max img.width img.height ≤ 256 → icoStep "ICO" img = img) ∧
    icoStep "ICO" ⟨"RGB", 512, 256⟩ = ⟨"RGB", 256, 128⟩ := by
  refine ⟨?_, ?_, by decide⟩
  · intro h
    have hm : 0 < max img.width img.height := by omega
    have hstep : icoStep "ICO" img =
        { img with
          width := img.width * 256 / max img.width img.height,
          height := img.height * 256 / max img.width img.height } := by
      simp [icoStep, h]
    rw [hstep]
    refine ⟨rfl, rfl, ?_⟩
    show max (img.width * 256 / max img.width img.height)
      (img.height * 256 / max img.width img.height) = 256
    have hw : img.width * 256 / max img.width img.height ≤ 256 := by
      calc img.width * 256 / max img.width img.height
          ≤ max img.width img.height * 256 / max img.width img.height :=
            Nat.div_le_div_right (Nat.mul_le_mul_right 256 (le_max_left _ _))
        _ = 256 := Nat.mul_div_cancel_left 256 hm
    have hh : img.height * 256 / max img.width img.height ≤ 256 := by
      calc img.height * 256 / max img.width img.height
          ≤ max img.width img.height * 256 / max img.width img.height :=
            Nat.div_le_div_right (Nat.mul_le_mul_right 256 (le_max_right _ _))
        _ = 256 := Nat.mul_div_cancel_left 256 hm
    rcases max_choice img.width img.height with hmax | hmax
    · have h256 : img.width * 256 / max img.width img.height = 256 := by
        rw [hmax]
        exact Nat.mul_div_cancel_left 256 (hmax ▸ hm)
      omega
    · have h256 : img.height * 256 / max img.width img.height = 256 := by
        rw [hmax]
        exact Nat.mul_div_cancel_left 256 (hmax ▸ hm)
      omega
  · intro h
    have hnot : ¬ 256 < max img.width img.height := not_lt.2 h
    simp [icoStep, hnot]

/-- Evaluation of the exact-rational idealisation at the 512 x 256 input. -/
theorem ico_downscale_exact_witness :
    (icoStep "ICO" (⟨"RGB", 512, 256⟩ : PILImage)).width = 512 * 256 / max 512 256 ∧
    (icoStep "ICO" (⟨"RGB", 512, 256⟩ : PILImage)).height = 256 * 256 / max 512 256 ∧
    max (icoStep "ICO" (⟨"RGB", 512, 256⟩ : PILImage)).width
      (icoStep "ICO" (⟨"RGB", 512, 256⟩ : PILImage)).height = 256 :=
  (ico_downscale_exact ⟨"RGB", 512, 256⟩).1 (by decide)

theorem halfEvenDiv_accuracy (a b : ℕ) (hb : 0 < b) :
    2 * halfEvenDiv a b * b ≤ 2 * a + b ∧ 2 * a ≤ 2 * halfEvenDiv a b * b + b := by
  have heq : b * (a / b) + a % b = a := Nat.div_add_mod a b
  have hr : a % b < b := Nat.mod_lt a hb
  unfold halfEvenDiv
  generalize hq : a / b = q at *
  generalize hrr : a % b = r at *
  split_ifs with h1 h2 h3
  · constructor <;> nlinarith [heq, hr, h1]
  · rw [Nat.not_lt] at h1
    constructor <;> nlinarith [heq, hr, h1, h2]
  · rw [Nat.not_lt] at h1 h2
    constructor <;> nlinarith [heq, hr, h1, h2]
  · rw [Nat.not_lt] at h1 h2
    constructor <;> nlinarith [heq, hr, h1, h2]

theorem scaleUpN_b : ∀ (f a b : ℕ) (e : ℤ), (scaleUpN f a b e).2.1 = b
  | 0, a, b, e => rfl
  | f + 1, a, b, e => by
    by_cases h : a < 2 ^ 52 * b
    · simp only [scaleUpN, if_pos h]
      exact scaleUpN_b f (2 * a) b (e - 1)
    · simp only [scaleUpN, if_neg h]

theorem scaleUpN_val : ∀ (f a b : ℕ) (e : ℤ), b ≠ 0 →
    ((scaleUpN f a b e).1 : ℚ) / ((scaleUpN f a b e).2.1 : ℚ) *
        (2 : ℚ) ^ (scaleUpN f a b e).2.2 = (a : ℚ) / b * (2 : ℚ) ^ e
  | 0, a, b, e, _ => rfl
  | f + 1, a, b, e, hb => by
    by_cases h : a < 2 ^ 52 * b
    · simp only [scaleUpN, if_pos h]
      rw [scaleUpN_val f (2 * a) b (e - 1) hb]
      have h2 : (2 : ℚ) ^ e = (2 : ℚ) ^ (e - 1) * 2 := by
        rw [show e = (e - 1) + 1 by ring, zpow_add_one₀ (by norm_num : (2:ℚ) ≠ 0)]
        ring_nf
      rw [h2]
      push_cast
      ring
    · simp only [scaleUpN, if_neg h]

theorem scaleUpN_lower : ∀ (f a b : ℕ) (e : ℤ), 2 ^ 52 * b ≤ a * 2 ^ f →
    2 ^ 52 * b ≤ (scaleUpN f a b e).1
  | 0, a, b, e, h => by simpa using h
  | f + 1, a, b, e, h => by
    by_cases hc : a < 2 ^ 52 * b
    · simp only [scaleUpN, if_pos hc]
      refine scaleUpN_lower f (2 * a) b (e - 1) ?_
      have : a * 2 ^ (f + 1) = 2 * a * 2 ^ f := by ring
      rw [this] at h
      exact h
    · simp only [scaleUpN, if_neg hc]
      omega

theorem scaleUpN_cases : ∀ (f a b : ℕ) (e : ℤ),
    (scaleUpN f a b e).1 = a ∨ (scaleUpN f a b e).1 < 2 ^ 53 * b
  | 0, a, b, e => Or.inl rfl
  | f + 1, a, b, e => by
    by_cases hc : a < 2 ^ 52 * b
    · simp only [scaleUpN, if_pos hc]
      rcases scaleUpN_cases f (2 * a) b (e - 1) with h | h
      · right; omega
      · right; exact h
    · simp only [scaleUpN, if_neg hc]
      exact Or.inl trivial

theorem scaleDownN_a : ∀ (f a b : ℕ) (e : ℤ), (scaleDownN f a b e).1 = a
  | 0, a, b, e => rfl
  | f + 1, a, b, e => by
    by_cases h : 2 ^ 53 * b ≤ a
    · simp only [scaleDownN, if_pos h]
      exact scaleDownN_a f a (2 * b) (e + 1)
    · simp only [scaleDownN, if_neg h]

theorem scaleDownN_bpos : ∀ (f a b : ℕ) (e : ℤ), 0 < b → 0 < (scaleDownN f a b e).2.1
  | 0, a, b, e, hb => hb
  | f + 1, a, b, e, hb => by
    by_cases h : 2 ^ 53 * b ≤ a
    · simp only [scaleDownN, if_pos h]
      exact scaleDownN_bpos f a (2 * b) (e + 1) (by omega)
    · simp only [scaleDownN, if_neg h]
      exact hb

theorem scaleDownN_val : ∀ (f a b : ℕ) (e : ℤ), b ≠ 0 →
    ((scaleDownN f a b e).1 : ℚ) / ((scaleDownN f a b e).2.1 : ℚ) *
        (2 : ℚ) ^ (scaleDownN f a b e).2.2 = (a : ℚ) / b * (2 : ℚ) ^ e
  | 0, a, b, e, _ => rfl
  | f + 1, a, b, e, hb => by
    by_cases h : 2 ^ 53 * b ≤ a
    · simp only [scaleDownN, if_pos h]
      rw [scaleDownN_val f a (2 * b) (e + 1) (by omega)]
      have h2 : (2 : ℚ) ^ (e + 1) = (2 : ℚ) ^ e * 2 := by
        rw [zpow_add_one₀ (by norm_num : (2:ℚ) ≠ 0)]
      rw [h2]
      have hbq : ((2 * b : ℕ) : ℚ) = 2 * (b : ℚ) := by push_cast; ring
      rw [hbq]
      have hb0 : (b : ℚ) ≠ 0 := Nat.cast_ne_zero.2 hb
      field_simp
      ring
    · simp only [scaleDownN, if_neg h]

theorem scaleDownN_lower : ∀ (f a b : ℕ) (e : ℤ), 2 ^ 52 * b ≤ a →
    2 ^ 52 * (scaleDownN f a b e).2.1 ≤ (scaleDownN f a b e).1
  | 0, a, b, e, h => h
  | f + 1, a, b, e, h => by
    by_cases hc : 2 ^ 53 * b ≤ a
    · simp only [scaleDownN, if_pos hc]
      exact scaleDownN_lower f a (2 * b) (e + 1) (by omega)
    · simp only [scaleDownN, if_neg hc]
      exact h

theorem scaleDownN_upper : ∀ (f a b : ℕ) (e : ℤ), a < 2 ^ 53 * b * 2 ^ f →
    (scaleDownN f a b e).1 < 2 ^ 53 * (scaleDownN f a b e).2.1
  | 0, a, b, e, h => by simpa using h
  | f + 1, a, b, e, h => by
    by_cases hc : 2 ^ 53 * b ≤ a
    · simp only [scaleDownN, if_pos hc]
      refine scaleDownN_upper f a (2 * b) (e + 1) ?_
      have : 2 ^ 53 * b * 2 ^ (f + 1) = 2 ^ 53 * (2 * b) * 2 ^ f := by ring
      rw [this] at h
      exact h
    · simp only [scaleDownN, if_neg hc]
      omega

theorem flPair_spec (a b : ℕ) (e : ℤ) (hb : 0 < b)
    (h1 : 2 ^ 52 * b ≤ a * 2 ^ 200) (h2 : a < 2 ^ 53 * b * 2 ^ 200) :
    2 ^ 52 ≤ (flPair a b e).1 ∧ (flPair a b e).1 ≤ 2 ^ 53 ∧
    |((flPair a b e).1 : ℚ) * (2 : ℚ) ^ (flPair a b e).2 -
        (a : ℚ) / b * (2 : ℚ) ^ e| ≤ (a : ℚ) / b * (2 : ℚ) ^ e / 2 ^ 53 := by
  have hbne : b ≠ 0 := by omega
  have hub : (scaleUpN 200 a b e).2.1 = b := scaleUpN_b 200 a b e
  have hlowu : 2 ^ 52 * b ≤ (scaleUpN 200 a b e).1 := scaleUpN_lower 200 a b e h1
  have hcase : (scaleUpN 200 a b e).1 = a ∨ (scaleUpN 200 a b e).1 < 2 ^ 53 * b :=
    scaleUpN_cases 200 a b e
  have hvu := scaleUpN_val 200 a b e hbne
  rw [hub] at hvu
  simp only [flPair, hub]
  set A := (scaleUpN 200 a b e).1 with hA
  set E1 := (scaleUpN 200 a b e).2.2 with hE1
  set d := scaleDownN 200 A b E1 with hd
  have hda : d.1 = A := scaleDownN_a 200 A b E1
  have hbpos' : 0 < d.2.1 := scaleDownN_bpos 200 A b E1 hb
  have hlowd : 2 ^ 52 * d.2.1 ≤ d.1 := scaleDownN_lower 200 A b E1 hlowu
  have hupd : d.1 < 2 ^ 53 * d.2.1 := by
    refine scaleDownN_upper 200 A b E1 ?_
    rcases hcase with h | h
    · omega
    · omega
  have hvd := scaleDownN_val 200 A b E1 hbne
  have hXv : (d.1 : ℚ) / (d.2.1 : ℚ) * (2 : ℚ) ^ d.2.2 = (a : ℚ) / b * (2 : ℚ) ^ e :=
    hvd.trans hvu
  have hacc := halfEvenDiv_accuracy d.1 d.2.1 hbpos'
  set s := halfEvenDiv d.1 d.2.1 with hs
  have hs_lo : 2 ^ 52 ≤ s := by
    have h' : d.2.1 * 2 ^ 53 ≤ d.2.1 * (2 * s + 1) := by nlinarith [hacc.2, hlowd]
    have := Nat.le_of_mul_le_mul_left h' hbpos'
    omega
  have hs_hi : s ≤ 2 ^ 53 := by
    have h' : d.2.1 * (2 * s) ≤ d.2.1 * (2 ^ 54 + 1) := by nlinarith [hacc.1, hupd]
    have := Nat.le_of_mul_le_mul_left h' hbpos'
    omega
  refine ⟨hs_lo, hs_hi, ?_⟩
  have hbQ : (0 : ℚ) < (d.2.1 : ℚ) := by exact_mod_cast hbpos'
  have hc1 : (2 * (s : ℚ) * d.2.1 : ℚ) ≤ 2 * d.1 + d.2.1 := by exact_mod_cast hacc.1
  have hc2 : (2 * (d.1 : ℚ) : ℚ) ≤ 2 * (s : ℚ) * d.2.1 + d.2.1 := by exact_mod_cast hacc.2
  have key0 : |(s : ℚ) * d.2.1 - d.1| ≤ (d.2.1 : ℚ) / 2 := by
    rw [abs_le]
    constructor <;> linarith
  have key : |(s : ℚ) - (d.1 : ℚ) / d.2.1| ≤ 1 / 2 := by
    have heqq : (s : ℚ) - (d.1 : ℚ) / d.2.1 = ((s : ℚ) * d.2.1 - d.1) / d.2.1 := by
      field_simp
    rw [heqq, abs_div, abs_of_pos hbQ, div_le_iff₀ hbQ]
    linarith [key0]
  have hpow : (0 : ℚ) < (2 : ℚ) ^ d.2.2 := by positivity
  have herr1 : |(s : ℚ) * (2 : ℚ) ^ d.2.2 - (d.1 : ℚ) / d.2.1 * (2 : ℚ) ^ d.2.2| ≤
      1 / 2 * (2 : ℚ) ^ d.2.2 := by
    have hfac : (s : ℚ) * (2 : ℚ) ^ d.2.2 - (d.1 : ℚ) / d.2.1 * (2 : ℚ) ^ d.2.2 =
        ((s : ℚ) - (d.1 : ℚ) / d.2.1) * (2 : ℚ) ^ d.2.2 := by ring
    rw [hfac, abs_mul, abs_of_pos hpow]
    exact mul_le_mul_of_nonneg_right key hpow.le
  have hX52 : (2 : ℚ) ^ 52 ≤ (d.1 : ℚ) / d.2.1 := by
    rw [le_div_iff₀ hbQ]
    exact_mod_cast hlowd
  have hhalf : (1 / 2 : ℚ) * (2 : ℚ) ^ d.2.2 ≤
      (d.1 : ℚ) / d.2.1 * (2 : ℚ) ^ d.2.2 / 2 ^ 53 := by
    rw [le_div_iff₀ (by norm_num : (0:ℚ) < 2 ^ 53)]
    have h2 : (1 / 2 : ℚ) * (2 : ℚ) ^ d.2.2 * 2 ^ 53 = (2 : ℚ) ^ 52 * (2 : ℚ) ^ d.2.2 := by
      have h53 : ((2 : ℚ) ^ 53 : ℚ) = 2 * 2 ^ 52 := by norm_num
      rw [h53]
      ring
    rw [h2]
    exact mul_le_mul_of_nonneg_right hX52 hpow.le
  rw [← hXv]
  exact le_trans herr1 hhalf

theorem floorSig_bounds (s : ℕ) (e : ℤ) :
    ((floorSig s e : ℕ) : ℚ) ≤ (s : ℚ) * (2 : ℚ) ^ e ∧
    (s : ℚ) * (2 : ℚ) ^ e < (floorSig s e : ℕ) + 1 := by
  by_cases he : 0 ≤ e
  · have hnat : ((e.toNat : ℤ)) = e := Int.toNat_of_nonneg he
    have hpow : (2 : ℚ) ^ e = ((2 ^ e.toNat : ℕ) : ℚ) := by
      rw [← hnat, zpow_natCast]
      push_cast
      rfl
    simp only [floorSig, if_pos he, hpow]
    constructor
    · push_cast
      linarith [le_refl ((s : ℚ) * (2 ^ e.toNat : ℕ))]
    · push_cast
      linarith [le_refl ((s : ℚ) * (2 ^ e.toNat : ℕ))]
  · set k := (-e).toNat with hk
    have hneg : e = -(k : ℤ) := by omega
    have hpow : (2 : ℚ) ^ e = (((2 : ℕ) ^ k : ℕ) : ℚ)⁻¹ := by
      rw [hneg, zpow_neg, zpow_natCast]
      push_cast
      rfl
    have hkpos : (0 : ℚ) < (((2 : ℕ) ^ k : ℕ) : ℚ) := by positivity
    simp only [floorSig, if_neg he]
    rw [hpow, ← div_eq_mul_inv]
    constructor
    · rw [le_div_iff₀ hkpos]
      exact_mod_cast Nat.div_mul_le_self s (2 ^ k)
    · rw [div_lt_iff₀ hkpos]
      have hlt : s < (s / 2 ^ k + 1) * 2 ^ k := by
        calc s = 2 ^ k * (s / 2 ^ k) + s % 2 ^ k := (Nat.div_add_mod s (2 ^ k)).symm
          _ < 2 ^ k * (s / 2 ^ k) + 2 ^ k :=
              Nat.add_lt_add_left (Nat.mod_lt s (by positivity)) _
          _ = (s / 2 ^ k + 1) * 2 ^ k := by ring
      exact_mod_cast hlt

theorem icoSideFloor (side m : ℕ) (hs : 0 < side) (hm256 : 256 < m)
    (hmb : m ≤ 2 ^ 50) (hsm : side ≤ m) :
    floorSig (flPair (side * (flPair 256 m 0).1) 1 (flPair 256 m 0).2).1
      (flPair (side * (flPair 256 m 0).1) 1 (flPair 256 m 0).2).2 ≤ 256 ∧
    (side = m →
      255 ≤ floorSig (flPair (side * (flPair 256 m 0).1) 1 (flPair 256 m 0).2).1
        (flPair (side * (flPair 256 m 0).1) 1 (flPair 256 m 0).2).2) := by
  have hm0 : 0 < m := by omega
  obtain ⟨hr_lo, hr_hi, hr_err⟩ :=
    flPair_spec 256 m 0 hm0 (by omega) (by omega)
  simp only [zpow_zero, mul_one] at hr_err
  set sr := (flPair 256 m 0).1 with hsr
  set er := (flPair 256 m 0).2 with her
  have hsrpos : 0 < sr := by omega
  have h1b : 2 ^ 52 * 1 ≤ side * sr * 2 ^ 200 := by
    have hle : 2 ^ 52 ≤ side * sr :=
      le_trans hr_lo (Nat.le_mul_of_pos_left sr hs)
    calc 2 ^ 52 * 1 = 2 ^ 52 := by ring
      _ ≤ side * sr := hle
      _ ≤ side * sr * 2 ^ 200 := Nat.le_mul_of_pos_right _ (by positivity)
  have h2b : side * sr < 2 ^ 53 * 1 * 2 ^ 200 := by
    calc side * sr ≤ 2 ^ 50 * 2 ^ 53 := Nat.mul_le_mul (le_trans hsm hmb) hr_hi
      _ < 2 ^ 53 * 1 * 2 ^ 200 := by norm_num
  obtain ⟨hv_lo, hv_hi, hv_err⟩ :=
    flPair_spec (side * sr) 1 er (by norm_num) h1b h2b
  push_cast at hv_err
  rw [div_one] at hv_err
  set P := (2 : ℚ) ^ er with hP
  set V := ((flPair (side * sr) 1 er).1 : ℚ) * (2 : ℚ) ^ (flPair (side * sr) 1 er).2
    with hV
  set F := floorSig (flPair (side * sr) 1 er).1 (flPair (side * sr) 1 er).2 with hF
  obtain ⟨hfb1, hfb2⟩ :=
    floorSig_bounds (flPair (side * sr) 1 er).1 (flPair (side * sr) 1 er).2
  rw [← hV, ← hF] at hfb1 hfb2
  have hmQ : (0 : ℚ) < (m : ℚ) := by exact_mod_cast hm0
  have hXpos : (0 : ℚ) < 256 / (m : ℚ) := by positivity
  have hXle : (side : ℚ) * (256 / (m : ℚ)) ≤ 256 := by
    rw [← mul_div_assoc, div_le_iff₀ hmQ]
    have : side * 256 ≤ 256 * m := by omega
    exact_mod_cast this
  have hs0 : (0 : ℚ) ≤ (side : ℚ) := by positivity
  rw [abs_le] at hr_err hv_err
  have hRu : (side : ℚ) * ((sr : ℚ) * P) ≤
      (side : ℚ) * (256 / (m : ℚ)) + (side : ℚ) * (256 / (m : ℚ)) / 2 ^ 53 := by
    have := mul_le_mul_of_nonneg_left (by linarith [hr_err.2] :
      (sr : ℚ) * P ≤ 256 / (m : ℚ) + 256 / (m : ℚ) / 2 ^ 53) hs0
    linarith [this]
  have hRl : (side : ℚ) * (256 / (m : ℚ)) - (side : ℚ) * (256 / (m : ℚ)) / 2 ^ 53 ≤
      (side : ℚ) * ((sr : ℚ) * P) := by
    have := mul_le_mul_of_nonneg_left (by linarith [hr_err.1] :
      256 / (m : ℚ) - 256 / (m : ℚ) / 2 ^ 53 ≤ (sr : ℚ) * P) hs0
    linarith [this]
  have hprod : (side : ℚ) * (sr : ℚ) * P = (side : ℚ) * ((sr : ℚ) * P) := by ring
  have hv2 : V ≤ (side : ℚ) * ((sr : ℚ) * P) + (side : ℚ) * ((sr : ℚ) * P) / 2 ^ 53 := by
    have := hv_err.2
    rw [hprod] at this
    linarith [this]
  have hv1 : (side : ℚ) * ((sr : ℚ) * P) - (side : ℚ) * ((sr : ℚ) * P) / 2 ^ 53 ≤ V := by
    have := hv_err.1
    rw [hprod] at this
    linarith [this]
  have hVu : V < 256 + 1 / 2 := by linarith [hXle, hRu, hv2, hXpos, hs0]
  constructor
  · by_contra hFgt
    push_neg at hFgt
    have h257 : (257 : ℚ) ≤ (F : ℚ) := by exact_mod_cast hFgt
    linarith [hfb1]
  · intro hside
    subst hside
    have hmX : (side : ℚ) * (256 / (side : ℚ)) = 256 := by
      field_simp
    have hVl : 255 + 1 / 2 < V := by
      rw [hmX] at hRu hRl hXle
      linarith [hRl, hv1, hRu, hv2]
    by_contra hFlt
    push_neg at hFlt
    have h254 : (F : ℚ) ≤ 254 := by exact_mod_cast Nat.lt_succ_iff.mp hFlt
    linarith [hfb2]

set_option maxRecDepth 10000 in
set_option maxHeartbeats 1000000 in
/-- Counterexample to C6 as stated: converting a 322 x 100 image to ICO
yields 255 x 79 — the binary64 rounding of `256.0 / 322` times 322 falls
just below 256, and the `int()` truncation lands on 255, so the longer
side does not equal exactly 256. -/
theorem ico_downscale_counterexample :
    icoStepF "ICO" ⟨"RGB", 322, 100⟩ = ⟨"RGB", 255, 79⟩ ∧
    max (icoStepF "ICO" ⟨"RGB", 322, 100⟩).width
      (icoStepF "ICO" ⟨"RGB", 322, 100⟩).height ≠ 256 := by
  exact ⟨by decide, by decide⟩

set_option maxRecDepth 10000 in
set_option maxHeartbeats 1000000 in
/-- C6 amended: converting to ICO with either dimension above 256, both
sides are scaled by the binary64 factor 256.0/max and truncated, and the
longer side of the output is 255 or 256 (exactly 256 only up to one unit
of float truncation; the exact-rational idealisation `ico_downscale_exact`
gives exactly 256); when both dimensions are at most 256 no downscale
occurs; a 512 x 256 source yields exactly 256 x 128 because its scale
factor 0.5 is a power of two. -/
theorem ico_downscale_amended (img : PILImage) :
    (256 < max img.width img.height → 0 < img.width → 0 < img.height →
      max img.width img.height ≤ 2 ^ 50 →
      255 ≤ max (icoStepF "ICO" img).width (icoStepF "ICO" img).height ∧
      max (icoStepF "ICO" img).width (icoStepF "ICO" img).height ≤ 256) ∧
    (max img.width img.height ≤ 256 → icoStepF "ICO" img = img) ∧
    icoStepF "ICO" ⟨"RGB", 512, 256⟩ = ⟨"RGB", 256, 128⟩ := by
  refine ⟨?_, ?_, by decide⟩
  · intro h256 hw hh hb
    have hstep : icoStepF "ICO" img =
        { img with
          width := (icoScaleF img.width img.height).1,
          height := (icoScaleF img.width img.height).2 } := by
      simp [icoStepF, h256]
    rw [hstep]
    have hWf := icoSideFloor img.width (max img.width img.height) hw h256 hb
      (le_max_left _ _)
    have hHf := icoSideFloor img.height (max img.width img.height) hh h256 hb
      (le_max_right _ _)
    simp only [icoScaleF]
    rcases max_choice img.width img.height with hm | hm
    · exact ⟨le_trans (hWf.2 hm.symm) (le_max_left _ _), max_le hWf.1 hHf.1⟩
    · exact ⟨le_trans (hHf.2 hm.symm) (le_max_right _ _), max_le hWf.1 hHf.1⟩
  · intro h
    have hnot : ¬ 256 < max img.width img.height := not_lt.2 h
    simp [icoStepF, hnot]

set_option maxRecDepth 10000 in
set_option maxHeartbeats 1000000 in
/-- Witness for C6 amended at the 512 x 256 input of the claim. -/
theorem ico_downscale_amended_witness :
    255 ≤ max (icoStepF "ICO" (⟨"RGB", 512, 256⟩ : PILImage)).width
        (icoStepF "ICO" (⟨"RGB", 512, 256⟩ : PILImage)).height ∧
    max (icoStepF "ICO" (⟨"RGB", 512, 256⟩ : PILImage)).width
        (icoStepF "ICO" (⟨"RGB", 512, 256⟩ : PILImage)).height ≤ 256 :=
  (ico_downscale_amended ⟨"RGB", 512, 256⟩).1 (by decide) (by decide) (by decide)
    (by decide)

theorem alphaStep_dims (t : String) (img : PILImage) :
    (alphaStep t img).width = img.width ∧ (alphaStep t img).height = img.height := by
  by_cases h1 : (t = "JPEG" ∨ t = "BMP" ∨ t = "ICO") ∧ img.mode = "RGBA"
  · simp [alphaStep, if_pos h1]
  · by_cases h2 : t = "JPEG" ∧ img.mode ≠ "RGB"
    · simp [alphaStep, if_neg h1, if_pos h2]
    · simp [alphaStep, if_neg h1, if_neg h2]

/-- C9: a conversion without resize to a non-ICO target keeps the source
dimensions: the alpha-handling step builds its background at the same size
and direct RGB conversion keeps dimensions, and the ICO downscale is
skipped. -/
theorem dims_preserved (target : String) (img : PILImage) (h : target ≠ "ICO") :
    (convertPipeline target none img).width = img.width ∧
    (convertPipeline target none img).height = img.height := by
  have hico : ∀ im : PILImage, icoStep target im = im := by
    intro im
    simp only [icoStep, if_neg h]
  simp only [convertPipeline, hico]
  exact alphaStep_dims target img

/-- Witness for C9: a no-resize JPEG conversion of a 100 x 80 RGBA image
keeps 100 x 80. -/
theorem dims_preserved_witness :
    (convertPipeline "JPEG" none ⟨"RGBA", 100, 80⟩).width = 100 ∧
    (convertPipeline "JPEG" none ⟨"RGBA", 100, 80⟩).height = 80 :=
  dims_preserved "JPEG" ⟨"RGBA", 100, 80⟩ (by decide)

theorem takeWhile_append_all {α : Type} (p : α → Bool) (l1 l2 : List α)
    (h : ∀ a ∈ l1, p a = true) :
    (l1 ++ l2).takeWhile p = l1 ++ l2.takeWhile p := by
  induction l1 with
  | nil => simp
  | cons a l ih =>
    have ha : p a = true := h a (List.mem_cons_self a l)
    have hl : ∀ b ∈ l, p b = true := fun b hb => h b (List.mem_cons_of_mem a hb)
    simp [List.takeWhile_cons, ha, ih hl]

theorem dropWhile_append_all {α : Type} (p : α → Bool) (l1 l2 : List α)
    (h : ∀ a ∈ l1, p a = true) :
    (l1 ++ l2).dropWhile p = l2.dropWhile p := by
  induction l1 with
  | nil => simp
  | cons a l ih =>
    have ha : p a = true := h a (List.mem_cons_self a l)
    have hl : ∀ b ∈ l, p b = true := fun b hb => h b (List.mem_cons_of_mem a hb)
    simp [List.dropWhile_cons, ha, ih hl]

theorem pathStem_last_dot (base extn : String) (hb : base ≠ "")
    (he : extn ≠ "") (hext : '.' ∉ extn.data) :
    pathStem (base ++ "." ++ extn) = base := by
  have hdata : (base ++ "." ++ extn).data = base.data ++ '.' :: extn.data := by
    simp [String.data_append]
  have hrev : (base ++ "." ++ extn).data.reverse =
      extn.data.reverse ++ '.' :: base.data.reverse := by
    rw [hdata]
    simp
  have hall : ∀ c ∈ extn.data.reverse, (c != '.') = true := by
    intro c hc
    have : c ∈ extn.data := List.mem_reverse.1 hc
    simp only [bne_iff_ne, ne_eq]
    exact fun hcd => hext (hcd ▸ this)
  have htake : (base ++ "." ++ extn).data.reverse.takeWhile (fun c => c != '.') =
      extn.data.reverse := by
    rw [hrev, takeWhile_append_all _ _ _ hall]
    simp [List.takeWhile_cons]
  have hdrop : (base ++ "." ++ extn).data.reverse.dropWhile (fun c => c != '.') =
      '.' :: base.data.reverse := by
    rw [hrev, dropWhile_append_all _ _ _ hall]
    simp [List.dropWhile_cons]
  have hbne : base.data.reverse ≠ [] := by
    intro hnil
    apply hb
    have : base.data = [] := by simpa using congrArg List.reverse hnil
    cases base
    simp_all
  have hene : extn.data.reverse ≠ [] := by
    intro hnil
    apply he
    have : extn.data = [] := by simpa using congrArg List.reverse hnil
    cases extn
    simp_all
  simp only [pathStem, htake, hdrop]
  rw [if_neg (by simp [hbne, hene])]
  simp

/-- Counterexample to C7 as stated: for the source file name
"my.photo.png" the code derives the stem with pathlib, which strips only
the last extension; the claim says the stem is taken before the first
extension separator, which would give "my_converted.webp". -/
theorem output_filename_counterexample :
    outName "my.photo.png" "WEBP" = some "my.photo_converted.webp" ∧
    some "my.photo_converted.webp" ≠ some "my_converted.webp" := by
  exact ⟨by decide, by decide⟩

/-- C7 amended: the offered download name is the original file-name stem
followed by "_converted." and the extension from the fixed target-format
table, independent of the original extension, where the stem is the name
before the last extension separator (pathlib `stem`). -/
theorem output_filename_amended (base extn target : String) (fmt : FormatRec)
    (hfmt : FORMAT_OPTIONS.lookup target = some fmt)
    (hb : base ≠ "") (he : extn ≠ "") (hext : '.' ∉ extn.data) :
    outName (base ++ "." ++ extn) target =
      some (base ++ "_converted." ++ fmt.ext) := by
  simp only [outName, hfmt]
  rw [pathStem_last_dot base extn hb he hext]
  rfl

/-- Witness for C7 amended: "scan01.PNG" converted to WEBP is offered as
"scan01_converted.webp". -/
theorem output_filename_amended_witness :
    outName "scan01.PNG" "WEBP" = some "scan01_converted.webp" :=
  output_filename_amended "scan01" "PNG" "WEBP" ⟨"webp", "image/webp", "WEBP"⟩
    (by decide) (by decide) (by decide) (by decide)

/-- C8: the size string is the exact byte count with " B" below 1024 bytes;
between 1024 bytes and 1 MiB it is the rendering of `n / 1024` rounded to
one decimal place (the printed tenths value is within 1/20 of the exact
quotient) with " KB"; from 1 MiB on it is `n / 1048576` rounded to two
decimal places (within 1/200 of the exact quotient) with " MB".  The three
sample sizes of the claim are evaluated. -/
theorem size_str_spec (n : ℕ) :
    (n < 1024 → sizeStr n = toString n ++ " B") ∧
    (1024 ≤ n → n < 1048576 →
      sizeStr n = renderTenths (halfEvenDiv (n * 10) 1024) ++ " KB" ∧
      |(halfEvenDiv (n * 10) 1024 : ℚ) / 10 - (n : ℚ) / 1024| ≤ 1 / 20) ∧
    (1048576 ≤ n →
      sizeStr n = renderHundredths (halfEvenDiv (n * 100) 1048576) ++ " MB" ∧
      |(halfEvenDiv (n * 100) 1048576 : ℚ) / 100 - (n : ℚ) / 1048576| ≤ 1 / 200) ∧
    sizeStr 500 = "500 B" ∧ sizeStr 2048 = "2.0 KB" ∧ sizeStr 3145728 = "3.0 MB" := by
  refine ⟨?_, ?_, ?_, by decide, by decide, by decide⟩
  · intro h
    simp [sizeStr, h]
  · intro h1 h2
    have hacc := halfEvenDiv_accuracy (n * 10) 1024 (by norm_num)
    have hc1 : (2 * (halfEvenDiv (n * 10) 1024) * 1024 : ℚ) ≤ 2 * (n * 10) + 1024 := by
      exact_mod_cast hacc.1
    have hc2 : (2 * (n * 10) : ℚ) ≤ 2 * (halfEvenDiv (n * 10) 1024) * 1024 + 1024 := by
      exact_mod_cast hacc.2
    refine ⟨?_, ?_⟩
    · have hn : ¬ n < 1024 := by omega
      simp [sizeStr, hn, h2]
    · rw [abs_le]
      constructor <;> linarith
  · intro h1
    have hacc := halfEvenDiv_accuracy (n * 100) 1048576 (by norm_num)
    have hc1 : (2 * (halfEvenDiv (n * 100) 1048576) * 1048576 : ℚ) ≤
        2 * (n * 100) + 1048576 := by
      exact_mod_cast hacc.1
    have hc2 : (2 * (n * 100) : ℚ) ≤
        2 * (halfEvenDiv (n * 100) 1048576) * 1048576 + 1048576 := by
      exact_mod_cast hacc.2
    refine ⟨?_, ?_⟩
    · have hn1 : ¬ n < 1024 := by omega
      have hn2 : ¬ n < 1048576 := by omega
      simp [sizeStr, hn1, hn2]
    · rw [abs_le]
      constructor <;> linarith

/-- Witness for C8 at 2048 bytes. -/
theorem size_str_spec_witness :
    sizeStr 2048 = renderTenths (halfEvenDiv (2048 * 10) 1024) ++ " KB" :=
  (((size_str_spec 2048).2.1 (by norm_num) (by norm_num))).1

/-- C10: a missing background image makes `get_bg_css` return the empty
string — a graceful no-background render, never an error — while a missing
model artifact or class-name file turns into an error of the corresponding
loader; and when the background exists the emitted CSS is nonempty. -/
theorem bg_missing_spec (data : String) (rawNames : List String) :
    get_bg_css false data = "" ∧
    get_bg_css true data ≠ "" ∧
    (∃ e, load_model false = Except.error e) ∧
    (∃ e, load_class_names false rawNames = Except.error e) ∧
    load_model true = Except.ok () ∧
    load_class_names true rawNames = Except.ok (rawNames.map clean_class_name) := by
  refine ⟨rfl, ?_, ⟨_, rfl⟩, ⟨_, rfl⟩, rfl, rfl⟩
  simp only [get_bg_css, if_pos rfl, bgCss]
  intro hcon
  have : ("<style> .stApp \x7b background-image: url(data:image/jpeg;base64,"
      ++ data ++ ") \x7d </style>").data = ("" : String).data :=
    congrArg String.data hcon
  simp [String.data_append] at this

end XRayApp
